import Mathlib

/-!
Verification development for the employee-directory web application.

The client side (TypeScript) is shallowly embedded: the employee record
type, the IndexedDB-backed cache (a mirror of employee records plus a
pending-operation queue), the submit/delete handlers and the sync engine
of src/components/EmployeeList.tsx and src/hooks/useEmployeeCache.ts.
The database side (SQL migrations) is embedded as a table of rows with
the two BEFORE triggers and the declarative constraints of the
employees table.  The remote store reached through the supabase client
is external to the repository and is modelled abstractly: a state type
with a request-application function that may fail.
-/

/-- The three mutation kinds stored in the pending-operation queue
(`addPendingOperation(operation: 'create' | 'update' | 'delete', ...)`). -/
inductive OpKind where
  | create
  | update
  | delete
deriving DecidableEq, Repr

/-- Client-side employee record, from the `Employee` interface of
EmployeeList.tsx / useEmployeeCache.ts.  JS strings are Lean strings,
`string | null` is `Option String`, and the numeric salary is an `Int`
(no arithmetic on it is exercised by any claim).  The presentational
`manager` join object is not part of the stored record and is omitted. -/
structure Employee where
  id : String
  employee_number : String
  first_name : String
  last_name : String
  email : Option String
  birth_date : String
  salary : Int
  role : String
  manager_id : Option String
deriving DecidableEq, Repr

/-- A record of the pending-operation queue, as written by
`addPendingOperation`: `store.add({ operation, employee, timestamp: Date.now() })`. -/
structure PendingOp where
  operation : OpKind
  employee : Employee
  timestamp : Nat
deriving DecidableEq, Repr

/-- A request issued to the remote store (the supabase client is external;
these are the three request shapes the repository issues during replay):
`insert(op.employee)`, `update(op.employee).eq("id", op.employee.id)`,
`delete().eq("id", op.employee.id)`. -/
inductive RemoteReq where
  | insert (e : Employee)
  | updateById (id : String) (e : Employee)
  | deleteById (id : String)
deriving DecidableEq, Repr

/-- The request the sync loop of `syncPendingOperations` issues for a
queued operation: insert for 'create', update-by-id for 'update',
delete-by-id for 'delete'. -/
def reqOf (op : PendingOp) : RemoteReq :=
  match op.operation with
  | OpKind.create => RemoteReq.insert op.employee
  | OpKind.update => RemoteReq.updateById op.employee.id op.employee
  | OpKind.delete => RemoteReq.deleteById op.employee.id

/-- `addPendingOperation` of useEmployeeCache.ts: `store.add({...})` on an
auto-increment store appends one record holding the operation kind, the
affected employee and the enqueue time. -/
def addPendingOperation (q : List PendingOp) (op : OpKind) (e : Employee) (now : Nat) :
    List PendingOp :=
  q ++ [{ operation := op, employee := e, timestamp := now }]

/-- `clearPendingOperations` of useEmployeeCache.ts: `store.clear()` empties
the pending store wholesale. -/
def clearPendingOperations (_q : List PendingOp) : List PendingOp := []

/-- Model of IndexedDB `store.put` on the employee mirror (keyPath 'id'):
replace the record with the same id if present, otherwise add the record. -/
def putLocal (mirror : List Employee) (e : Employee) : List Employee :=
  if mirror.any (fun x => x.id == e.id) then
    mirror.map (fun x => if x.id == e.id then e else x)
  else
    mirror ++ [e]

/-- `addToLocalDB` of useEmployeeCache.ts: `store.put(employee)`. -/
def addToLocalDB (mirror : List Employee) (e : Employee) : List Employee :=
  putLocal mirror e

/-- `updateInLocalDB` of useEmployeeCache.ts: `store.put(employee)`. -/
def updateInLocalDB (mirror : List Employee) (e : Employee) : List Employee :=
  putLocal mirror e

/-- `deleteFromLocalDB` of useEmployeeCache.ts: `store.delete(id)`. -/
def deleteFromLocalDB (mirror : List Employee) (i : String) : List Employee :=
  mirror.filter (fun x => x.id != i)

/-- Client cache state: the employee mirror and the pending-operation queue
(the two object stores of the EmployeeDB IndexedDB database). -/
structure ClientState where
  mirror : List Employee
  pending : List PendingOp
deriving Repr

/-- The submit handler of EmployeeDialog.tsx after validation.  `existing`
is the employee being edited (`none` for the create path); `e` is the
record being written (for the update path, `{...employee, ...dataToSubmit}`;
for the create path, `dataToSubmit` plus the generated id).  Online, a
request is issued to the remote store and the local state is untouched;
offline, the mirror is updated with `put` and a pending operation is
queued, and no request is issued. -/
def handleSubmit (isOnline : Bool) (st : ClientState) (existing : Option Employee)
    (e : Employee) (now : Nat) : ClientState × List RemoteReq :=
  match existing with
  | some old =>
    if isOnline then
      (st, [RemoteReq.updateById old.id e])
    else
      ({ mirror := updateInLocalDB st.mirror e,
         pending := addPendingOperation st.pending OpKind.update e now }, [])
  | none =>
    if isOnline then
      (st, [RemoteReq.insert e])
    else
      ({ mirror := addToLocalDB st.mirror e,
         pending := addPendingOperation st.pending OpKind.create e now }, [])

/-- The delete handler of EmployeeList.tsx (after the confirm dialog, with
`e` the record found for the id).  Online, a delete-by-id request is
issued; offline, the record is deleted from the mirror and a 'delete'
pending operation is queued, and no request is issued. -/
def handleDelete (isOnline : Bool) (st : ClientState) (e : Employee) (now : Nat) :
    ClientState × List RemoteReq :=
  if isOnline then
    (st, [RemoteReq.deleteById e.id])
  else
    ({ mirror := deleteFromLocalDB st.mirror e.id,
       pending := addPendingOperation st.pending OpKind.delete e now }, [])

/-- Outcome of one sync run over an abstract remote store of type `σ`:
the final remote state, the requests attempted in order, and whether the
whole queue replayed successfully. -/
structure SyncOutcome (σ : Type) where
  remote : σ
  issued : List RemoteReq
  ok : Bool
deriving Repr

/-- The `for (const op of pending)` loop of `syncPendingOperations`:
replay the queued operations in order against the remote store (modelled
by `apply`, where `none` is a thrown/returned error); on the first
failure stop, attempting none of the remaining operations. -/
def replayOps {σ : Type} (apply : RemoteReq → σ → Option σ) :
    List PendingOp → σ → SyncOutcome σ
  | [], r => { remote := r, issued := [], ok := true }
  | op :: rest, r =>
    match apply (reqOf op) r with
    | some r' =>
      let o := replayOps apply rest r'
      { remote := o.remote, issued := reqOf op :: o.issued, ok := o.ok }
    | none => { remote := r, issued := [reqOf op], ok := false }

/-- `syncPendingOperations` of EmployeeList.tsx: replay the queue in order,
and clear the pending store only after the loop completes without error
(on an error the handler returns early, leaving the queue untouched).
Returns the sync outcome together with the queue contents after the run. -/
def syncPendingOperations {σ : Type} (apply : RemoteReq → σ → Option σ)
    (r : σ) (q : List PendingOp) : SyncOutcome σ × List PendingOp :=
  let o := replayOps apply q r
  (o, if o.ok then clearPendingOperations q else q)

/-- A row of the `public.employees` table
(migration 20251007141637 plus the email column of migration 20251012130455).
The SQL timestamps are abstract instants (`Nat`), DECIMAL salary is an `Int`
times a fixed scale (no arithmetic on it is exercised), UUIDs are strings. -/
structure EmployeeRow where
  id : String
  employee_number : String
  first_name : String
  last_name : String
  email : Option String
  birth_date : String
  salary : Int
  role : String
  manager_id : Option String
  created_at : Nat
  updated_at : Nat
  created_by : Option String
deriving DecidableEq, Repr

/-- The `check_manager_not_self` trigger function (BEFORE INSERT OR UPDATE):
`IF NEW.manager_id = NEW.id THEN RAISE EXCEPTION 'An employee cannot be
their own manager'; END IF; RETURN NEW;`.  A NULL manager_id never
compares equal in SQL, so only a non-null self-reference raises. -/
def check_manager_not_self (new : EmployeeRow) : Except String EmployeeRow :=
  if new.manager_id = some new.id then
    Except.error "An employee cannot be their own manager"
  else
    Except.ok new

/-- The `update_updated_at` trigger function (BEFORE UPDATE):
`NEW.updated_at = NOW(); RETURN NEW;`. -/
def update_updated_at (now : Nat) (new : EmployeeRow) : EmployeeRow :=
  { new with updated_at := now }

/-- The declarative constraints of the employees table checked when a row
is written: UNIQUE employee_number, PRIMARY KEY id, UNIQUE email (NULLs
exempt, as in SQL), CHECK (salary >= 0).  `others` is the set of rows the
new row is checked against. -/
def rowConstraintError (others : List EmployeeRow) (r : EmployeeRow) : Option String :=
  if others.any (fun x => x.employee_number == r.employee_number) then
    some "duplicate key value violates unique constraint \"employees_employee_number_key\""
  else if others.any (fun x => x.id == r.id) then
    some "duplicate key value violates unique constraint \"employees_pkey\""
  else if (match r.email with
           | some em => others.any (fun x => x.email == some em)
           | none => false) then
    some "duplicate key value violates unique constraint \"employees_email_key\""
  else if r.salary < 0 then
    some "new row violates check constraint \"employees_salary_check\""
  else
    none

/-- INSERT INTO employees: the BEFORE INSERT row trigger
(`prevent_self_reporting`, executing `check_manager_not_self`) runs first;
if it raises, the row is not written.  Then the declarative constraints
are checked against the existing rows; on success the row is appended. -/
def employees_insert (tbl : List EmployeeRow) (new : EmployeeRow) :
    Except String (List EmployeeRow) :=
  match check_manager_not_self new with
  | Except.error e => Except.error e
  | Except.ok r =>
    match rowConstraintError tbl r with
    | some e => Except.error e
    | none => Except.ok (tbl ++ [r])

/-- The columns set by an UPDATE issued by the application
(`dataToSubmit` of EmployeeDialog.tsx). -/
structure EmployeeUpdate where
  employee_number : String
  first_name : String
  last_name : String
  email : Option String
  birth_date : String
  salary : Int
  role : String
  manager_id : Option String
deriving DecidableEq, Repr

/-- NEW row produced by applying the updated columns to the stored row
(the columns not in the update keep their stored values). -/
def applyUpdate (u : EmployeeUpdate) (old : EmployeeRow) : EmployeeRow :=
  { old with
    employee_number := u.employee_number
    first_name := u.first_name
    last_name := u.last_name
    email := u.email
    birth_date := u.birth_date
    salary := u.salary
    role := u.role
    manager_id := u.manager_id }

/-- UPDATE employees SET ... WHERE id = targetId: for the matching row the
two BEFORE UPDATE row triggers run in name order (`prevent_self_reporting`
then `set_updated_at`); if neither raises the constraints are checked
against the other rows and the stored row is replaced.  An update matching
no row succeeds without changing the table. -/
def employees_update (now : Nat) (tbl : List EmployeeRow) (targetId : String)
    (u : EmployeeUpdate) : Except String (List EmployeeRow) :=
  match tbl.find? (fun x => x.id == targetId) with
  | none => Except.ok tbl
  | some old =>
    match check_manager_not_self (applyUpdate u old) with
    | Except.error e => Except.error e
    | Except.ok r1 =>
      let r2 := update_updated_at now r1
      match rowConstraintError (tbl.filter (fun x => x.id != targetId)) r2 with
      | some e => Except.error e
      | none => Except.ok (tbl.map (fun x => if x.id == targetId then r2 else x))

/-- Code points of a Lean string literal; JS strings in the gravatar module
are modelled as lists of Unicode code points, so that trimming and
lowercasing can be reasoned about per character. -/
def codes (s : String) : List Nat := s.data.map Char.toNat

/-- ASCII whitespace removed by JS `String.prototype.trim`
(space, tab, line feed, carriage return, vertical tab, form feed). -/
def isWSCode (n : Nat) : Bool :=
  n == 32 || n == 9 || n == 10 || n == 13 || n == 11 || n == 12

/-- JS `email.trim()`: drop leading and trailing whitespace. -/
def jsTrim (l : List Nat) : List Nat :=
  ((l.dropWhile isWSCode).reverse.dropWhile isWSCode).reverse

/-- JS `toLowerCase` on one code point (the emails at issue are ASCII;
only the uppercase ASCII range is mapped). -/
def lowerCode (n : Nat) : Nat := if 65 ≤ n && n ≤ 90 then n + 32 else n

/-- JS `email.toLowerCase()`. -/
def jsToLowerCase (l : List Nat) : List Nat := l.map lowerCode

/-- Truncation to a 32-bit word. -/
def w32 (n : Nat) : Nat := n % 4294967296

/-- Bitwise complement on 32 bits. -/
def not32 (n : Nat) : Nat := Nat.xor n 4294967295

/-- Left rotation of a 32-bit word. -/
def rotl32 (x s : Nat) : Nat := w32 (Nat.shiftLeft x s) + Nat.shiftRight x (32 - s)

/-- The 64 MD5 round constants, floor(abs(sin(i+1)) * 2^32). -/
def md5K : List Nat :=
  [3614090360, 3905402710, 606105819, 3250441966, 4118548399, 1200080426,
   2821735955, 4249261313, 1770035416, 2336552879, 4294925233, 2304563134,
   1804603682, 4254626195, 2792965006, 1236535329, 4129170786, 3225465664,
   643717713, 3921069994, 3593408605, 38016083, 3634488961, 3889429448,
   568446438, 3275163606, 4107603335, 1163531501, 2850285829, 4243563512,
   1735328473, 2368359562, 4294588738, 2272392833, 1839030562, 4259657740,
   2763975236, 1272893353, 4139469664, 3200236656, 681279174, 3936430074,
   3572445317, 76029189, 3654602809, 3873151461, 530742520, 3299628645,
   4096336452, 1126891415, 2878612391, 4237533241, 1700485571, 2399980690,
   4293915773, 2240044497, 1873313359, 4264355552, 2734768916, 1309151649,
   4149444226, 3174756917, 718787259, 3951481745]

/-- The 64 MD5 per-round shift amounts. -/
def md5S : List Nat :=
  [7, 12, 17, 22, 7, 12, 17, 22, 7, 12, 17, 22, 7, 12, 17, 22,
   5, 9, 14, 20, 5, 9, 14, 20, 5, 9, 14, 20, 5, 9, 14, 20,
   4, 11, 16, 23, 4, 11, 16, 23, 4, 11, 16, 23, 4, 11, 16, 23,
   6, 10, 15, 21, 6, 10, 15, 21, 6, 10, 15, 21, 6, 10, 15, 21]

/-- UTF-8 encoding of one code point (CryptoJS parses the input string as
UTF-8 before hashing). -/
def utf8Bytes (n : Nat) : List Nat :=
  if n < 128 then [n]
  else if n < 2048 then [192 + n / 64, 128 + n % 64]
  else if n < 65536 then [224 + n / 4096, 128 + n / 64 % 64, 128 + n % 64]
  else [240 + n / 262144, 128 + n / 4096 % 64, 128 + n / 64 % 64, 128 + n % 64]

/-- Little-endian byte decomposition of a number into `count` bytes. -/
def leBytes (count : Nat) (n : Nat) : List Nat :=
  match count with
  | 0 => []
  | c + 1 => n % 256 :: leBytes c (n / 256)

/-- MD5 padding: append 0x80, zero bytes up to 56 mod 64, then the
64-bit little-endian bit length of the message. -/
def md5Pad (msg : List Nat) : List Nat :=
  let k := msg.length
  let z := (120 - (k + 1) % 64) % 64
  msg ++ [128] ++ List.replicate z 0 ++ leBytes 8 (8 * k)

/-- Split a byte list into 64-byte chunks (structural recursion on a fuel
bound so that the definition reduces inside the kernel). -/
def toChunksF : Nat → List Nat → List (List Nat)
  | 0, _ => []
  | _, [] => []
  | fuel + 1, a :: rest => (a :: rest).take 64 :: toChunksF fuel ((a :: rest).drop 64)

/-- Split a byte list into 64-byte chunks. -/
def toChunks (l : List Nat) : List (List Nat) := toChunksF l.length l

/-- The sixteen little-endian 32-bit words of a 64-byte chunk. -/
def chunkWords (chunk : List Nat) : List Nat :=
  (List.range 16).map (fun i =>
    chunk.getD (4 * i) 0 + 256 * chunk.getD (4 * i + 1) 0 +
    65536 * chunk.getD (4 * i + 2) 0 + 16777216 * chunk.getD (4 * i + 3) 0)

/-- The MD5 round function for round `i`. -/
def md5F (i b c d : Nat) : Nat :=
  if i < 16 then Nat.lor (Nat.land b c) (Nat.land (not32 b) d)
  else if i < 32 then Nat.lor (Nat.land d b) (Nat.land (not32 d) c)
  else if i < 48 then Nat.xor b (Nat.xor c d)
  else Nat.xor c (Nat.lor b (not32 d))

/-- The MD5 message-word index for round `i`. -/
def md5G (i : Nat) : Nat :=
  if i < 16 then i
  else if i < 32 then (5 * i + 1) % 16
  else if i < 48 then (3 * i + 5) % 16
  else (7 * i) % 16

/-- One MD5 round on the state (a, b, c, d). -/
def md5Step (M : List Nat) (st : Nat × Nat × Nat × Nat) (i : Nat) :
    Nat × Nat × Nat × Nat :=
  let f := w32 (st.1 + md5F i st.2.1 st.2.2.1 st.2.2.2 + md5K.getD i 0 +
                M.getD (md5G i) 0)
  (st.2.2.2, w32 (st.2.1 + rotl32 f (md5S.getD i 0)), st.2.1, st.2.2.1)

/-- Process one 64-byte chunk: 64 rounds, then add into the state. -/
def md5Chunk (st : Nat × Nat × Nat × Nat) (chunk : List Nat) :
    Nat × Nat × Nat × Nat :=
  let M := chunkWords chunk
  let r := (List.range 64).foldl (md5Step M) st
  (w32 (st.1 + r.1), w32 (st.2.1 + r.2.1), w32 (st.2.2.1 + r.2.2.1),
   w32 (st.2.2.2 + r.2.2.2))

/-- MD5 digest (16 bytes) of a byte list. -/
def md5Bytes (msg : List Nat) : List Nat :=
  let st := (toChunks (md5Pad msg)).foldl md5Chunk
    (1732584193, 4023233417, 2562383102, 271733878)
  leBytes 4 st.1 ++ leBytes 4 st.2.1 ++ leBytes 4 st.2.2.1 ++ leBytes 4 st.2.2.2

/-- Code point of one lowercase hex digit. -/
def hexDigitCode (n : Nat) : Nat := if n < 10 then 48 + n else 87 + n

/-- The two hex-digit code points of a byte. -/
def byteHexCodes (b : Nat) : List Nat := [hexDigitCode (b / 16), hexDigitCode (b % 16)]

/-- The lowercase hex MD5 digest of a code-point string, as code points:
the model of `CryptoJS.MD5(s).toString()`. -/
def md5HexCodes (codepoints : List Nat) : List Nat :=
  ((md5Bytes ((codepoints.map utf8Bytes).flatten)).map byteHexCodes).flatten

/-- `getGravatarUrl` of src/lib/gravatar.ts.  A missing (`none`, for
null/undefined) or empty email is JS-falsy and yields the hash-free
default URL; otherwise the MD5 hash of `email.trim().toLowerCase()` is
spliced into the URL. -/
def getGravatarUrl (email : Option (List Nat)) (size : Nat)
    (defaultImage : List Nat) : List Nat :=
  match email with
  | none =>
    codes "https://www.gravatar.com/avatar/?s=" ++ codes (toString size) ++
      codes "&d=" ++ defaultImage
  | some e =>
    if e = [] then
      codes "https://www.gravatar.com/avatar/?s=" ++ codes (toString size) ++
        codes "&d=" ++ defaultImage
    else
      codes "https://www.gravatar.com/avatar/" ++
        md5HexCodes (jsToLowerCase (jsTrim e)) ++
        codes "?s=" ++ codes (toString size) ++ codes "&d=" ++ defaultImage

/-- A node of the hierarchy view: an employee and its subordinates
(the `Employee & subordinates` shape built by EmployeeHierarchy.tsx). -/
inductive ETree where
  | node : Employee → List ETree → ETree
deriving Repr

/-- The employee at the root of a tree. -/
def rootLabel : ETree → Employee
  | ETree.node e _ => e

/-- The map lookup `employeeMap.get(emp.manager_id)` of `buildHierarchyTree`,
guarded by the JS-truthiness test `emp.manager_id && employeeMap.has(...)`:
a null manager id and the (falsy) empty string give no manager, and an id
matching no employee gives no manager.  `find?` matches the map built
keyed by id (the lists the claims range over have pairwise-distinct ids,
for which first and last occurrence coincide). -/
def managerOf (es : List Employee) (e : Employee) : Option Employee :=
  match e.manager_id with
  | none => none
  | some m => if m == "" then none else es.find? (fun x => x.id == m)

/-- Whether `buildHierarchyTree` attaches this employee under a manager
node rather than pushing it into `roots`. -/
def isAttached (es : List Employee) (e : Employee) : Bool :=
  (managerOf es e).isSome

/-- Whether `buildHierarchyTree` pushes `c` into the subordinates of the
node with id `i`. -/
def childOf (es : List Employee) (i : String) (c : Employee) : Bool :=
  isAttached es c && (c.manager_id == some i)

/-- The subtree rooted at `e` of the linked structure `buildHierarchyTree`
creates by mutation: the subordinates of the node for `e` are, in list
order, the employees attached under id `e.id`.  The mutual references of
the JS object graph are unfolded with explicit fuel; fuel `es.length`
(as used by `buildHierarchyTree` below) covers every chain of managers
reachable from a root. -/
def buildNode (es : List Employee) : Nat → Employee → ETree
  | 0, e => ETree.node e []
  | fuel + 1, e =>
    ETree.node e ((es.filter (childOf es e.id)).map (buildNode es fuel))

/-- `buildHierarchyTree` of EmployeeHierarchy.tsx: every employee whose
manager reference is falsy or matches no employee becomes a root, in list
order; every other employee is attached under its manager's node. -/
def buildHierarchyTree (es : List Employee) : List ETree :=
  (es.filter (fun e => !(isAttached es e))).map (buildNode es es.length)

/-- The chain of managers above `e`: `e`, its manager, its manager's
manager, ..., ending at an employee with no attached manager.  `none`
when the fuel runs out before the chain terminates. -/
def chainUp (es : List Employee) : Nat → Employee → Option (List Employee)
  | 0, e =>
    match managerOf es e with
    | none => some [e]
    | some _ => none
  | f + 1, e =>
    match managerOf es e with
    | none => some [e]
    | some m => (chainUp es f m).map (fun l => e :: l)

/-- Acyclicity of the manager relation restricted to the list: from every
employee the manager chain terminates within `es.length` steps.  For a
finite list this is exactly acyclicity of the manager graph. -/
def acyclicB (es : List Employee) : Bool :=
  es.all (fun e => (chainUp es es.length e).isSome)

/-- Distance from `e` to the top of its manager chain (0 for a root). -/
def rankOf (es : List Employee) (e : Employee) : Nat :=
  match chainUp es es.length e with
  | some l => l.length - 1
  | none => 0

mutual

/-- Number of nodes of a tree labelled with the given employee. -/
def countT (e : Employee) : ETree → Nat
  | ETree.node x subs => (if x = e then 1 else 0) + countF e subs

/-- Number of nodes of a forest labelled with the given employee. -/
def countF (e : Employee) : List ETree → Nat
  | [] => 0
  | t :: ts => countT e t + countF e ts

end

/-- Whether some root of the forest is labelled `e`. -/
def hasRootLabel (e : Employee) (ts : List ETree) : Bool :=
  ts.any (fun t => rootLabel t == e)

mutual

/-- Whether the tree contains a node labelled `mgr` having a subordinate
labelled `e`. -/
def occursWithChild (mgr e : Employee) : ETree → Bool
  | ETree.node x subs =>
    (x == mgr && hasRootLabel e subs) || occursWithChildF mgr e subs

/-- Whether some tree of the forest contains a node labelled `mgr` having
a subordinate labelled `e`. -/
def occursWithChildF (mgr e : Employee) : List ETree → Bool
  | [] => false
  | t :: ts => occursWithChild mgr e t || occursWithChildF mgr e ts

end

/-- Sample employee record used in concrete instantiations. -/
def sampleEmp : Employee :=
  { id := "e1", employee_number := "EMP001", first_name := "Ada",
    last_name := "Lovelace", email := some "ada@example.com",
    birth_date := "1815-12-10", salary := 100, role := "Engineer",
    manager_id := none }

/-- Second sample employee record used in concrete instantiations. -/
def sampleEmp2 : Employee :=
  { id := "e2", employee_number := "EMP002", first_name := "Alan",
    last_name := "Turing", email := none, birth_date := "1912-06-23",
    salary := 90, role := "Analyst", manager_id := some "e1" }

/-- Sample two-element pending queue. -/
def sampleQueue : List PendingOp :=
  [{ operation := OpKind.create, employee := sampleEmp, timestamp := 1 },
   { operation := OpKind.delete, employee := sampleEmp2, timestamp := 2 }]

/-- Remote model that accepts every request (counts them). -/
def okApply : RemoteReq → Nat → Option Nat := fun _ n => some (n + 1)

/-- Remote model that rejects every request. -/
def failApply : RemoteReq → Nat → Option Nat := fun _ _ => none

/-- Remote model that accepts the first request and rejects the rest. -/
def failSecondApply : RemoteReq → Nat → Option Nat :=
  fun _ n => if n == 0 then some 1 else none

/-- Sample table row for the database-side instantiations. -/
def sampleRow : EmployeeRow :=
  { id := "r1", employee_number := "EMP001", first_name := "Grace",
    last_name := "Hopper", email := some "grace@example.com",
    birth_date := "1906-12-09", salary := 120, role := "Admiral",
    manager_id := none, created_at := 10, updated_at := 10,
    created_by := some "u1" }

/-- A row with the same employee_number as `sampleRow` but a different id
and no self-managed manager reference. -/
def dupNumberRow : EmployeeRow :=
  { id := "r2", employee_number := "EMP001", first_name := "Edsger",
    last_name := "Dijkstra", email := none, birth_date := "1930-05-11",
    salary := 110, role := "Professor", manager_id := none,
    created_at := 11, updated_at := 11, created_by := some "u1" }

/-- A self-managed row. -/
def selfManagedRow : EmployeeRow :=
  { id := "r3", employee_number := "EMP003", first_name := "Kurt",
    last_name := "Goedel", email := none, birth_date := "1906-04-28",
    salary := 100, role := "Logician", manager_id := some "r3",
    created_at := 12, updated_at := 12, created_by := none }

/-- Sample update payload. -/
def sampleUpdate : EmployeeUpdate :=
  { employee_number := "EMP001", first_name := "Grace",
    last_name := "Hopper", email := some "grace@example.com",
    birth_date := "1906-12-09", salary := 130, role := "Rear Admiral",
    manager_id := none }

/-- Root employee of the sample hierarchy. -/
def demoAlice : Employee :=
  { id := "a", employee_number := "A1", first_name := "Alice",
    last_name := "Root", email := none, birth_date := "1980-01-01",
    salary := 10, role := "CEO", manager_id := none }

/-- Subordinate employee of the sample hierarchy. -/
def demoBob : Employee :=
  { id := "b", employee_number := "B1", first_name := "Bob",
    last_name := "Leaf", email := none, birth_date := "1990-01-01",
    salary := 5, role := "Dev", manager_id := some "a" }

/-- Sample two-employee hierarchy. -/
def demoHierEs : List Employee := [demoAlice, demoBob]

/-- An employee list containing the same record (and hence the same id)
twice; its manager relation is trivially acyclic. -/
def dupIdEmp : Employee :=
  { id := "d", employee_number := "D1", first_name := "Dup",
    last_name := "Dup", email := none, birth_date := "2000-01-01",
    salary := 1, role := "Clerk", manager_id := none }

/-- The duplicate-id employee list. -/
def dupIdEs : List Employee := [dupIdEmp, dupIdEmp]

/-- A row with a fresh id, employee number and email. -/
def freshRow : EmployeeRow :=
  { id := "r9", employee_number := "EMP009", first_name := "Emmy",
    last_name := "Noether", email := none, birth_date := "1882-03-23",
    salary := 95, role := "Mathematician", manager_id := some "r1",
    created_at := 20, updated_at := 20, created_by := none }

/-- An update payload that makes the row with id "r1" its own manager. -/
def selfRefUpdate : EmployeeUpdate :=
  { employee_number := "EMP001", first_name := "Grace",
    last_name := "Hopper", email := some "grace@example.com",
    birth_date := "1906-12-09", salary := 130, role := "Rear Admiral",
    manager_id := some "r1" }

theorem replayOps_issued_take {σ : Type} (apply : RemoteReq → σ → Option σ) :
    ∀ (q : List PendingOp) (r : σ),
      (replayOps apply q r).issued =
        (q.take (replayOps apply q r).issued.length).map reqOf := by
  intro q
  induction q with
  | nil => intro r; rfl
  | cons op rest ih =>
    intro r
    cases h : apply (reqOf op) r with
    | some r' =>
      simp only [replayOps, h, List.length_cons, List.take_succ_cons,
        List.map_cons, List.cons.injEq, true_and]
      exact ih r'
    | none =>
      simp [replayOps, h]

theorem replayOps_issued_length_le {σ : Type} (apply : RemoteReq → σ → Option σ) :
    ∀ (q : List PendingOp) (r : σ),
      (replayOps apply q r).issued.length ≤ q.length := by
  intro q
  induction q with
  | nil => intro r; simp [replayOps]
  | cons op rest ih =>
    intro r
    cases h : apply (reqOf op) r with
    | some r' =>
      simp only [replayOps, h, List.length_cons]
      exact Nat.succ_le_succ (ih r')
    | none =>
      simp [replayOps, h]

theorem replayOps_ok_issued {σ : Type} (apply : RemoteReq → σ → Option σ) :
    ∀ (q : List PendingOp) (r : σ),
      (replayOps apply q r).ok = true →
      (replayOps apply q r).issued = q.map reqOf := by
  intro q
  induction q with
  | nil => intro r _; rfl
  | cons op rest ih =>
    intro r hok
    cases h : apply (reqOf op) r with
    | some r' =>
      simp only [replayOps, h] at hok ⊢
      simp [ih r' hok]
    | none =>
      simp [replayOps, h] at hok

/-- C1: on reconnect the sync engine replays the queued operations against
the remote store sequentially in enqueue order, issuing insert for
'create', update-by-id for 'update' and delete-by-id for 'delete'; the
attempted requests are always the image of an initial segment of the
queue (so after a failure none of the remaining operations is attempted),
and a fully successful run attempts exactly the whole queue. -/
theorem sync_replays_in_queue_order {σ : Type} (apply : RemoteReq → σ → Option σ)
    (r : σ) (q : List PendingOp) :
    ((syncPendingOperations apply r q).1.issued =
      (q.take (syncPendingOperations apply r q).1.issued.length).map reqOf) ∧
    (syncPendingOperations apply r q).1.issued.length ≤ q.length ∧
    ((syncPendingOperations apply r q).1.ok = true →
      (syncPendingOperations apply r q).1.issued = q.map reqOf) ∧
    (∀ (e : Employee) (t : Nat),
      reqOf { operation := OpKind.create, employee := e, timestamp := t } =
        RemoteReq.insert e ∧
      reqOf { operation := OpKind.update, employee := e, timestamp := t } =
        RemoteReq.updateById e.id e ∧
      reqOf { operation := OpKind.delete, employee := e, timestamp := t } =
        RemoteReq.deleteById e.id) := by
  refine ⟨?_, ?_, ?_, ?_⟩
  · exact replayOps_issued_take apply q r
  · exact replayOps_issued_length_le apply q r
  · exact replayOps_ok_issued apply q r
  · intro e t; exact ⟨rfl, rfl, rfl⟩

theorem sync_replays_in_queue_order_witness :
    (syncPendingOperations okApply 0 sampleQueue).1.issued = sampleQueue.map reqOf :=
  (sync_replays_in_queue_order okApply 0 sampleQueue).2.2.1 (by decide)

/-- C2: the queue is cleared only after a fully successful replay: a run
in which some operation fails leaves the queue contents exactly as they
were before the run, and only a fully successful run clears it. -/
theorem sync_failure_preserves_queue {σ : Type} (apply : RemoteReq → σ → Option σ)
    (r : σ) (q : List PendingOp) :
    ((syncPendingOperations apply r q).1.ok = false →
      (syncPendingOperations apply r q).2 = q) ∧
    ((syncPendingOperations apply r q).1.ok = true →
      (syncPendingOperations apply r q).2 = []) := by
  constructor
  · intro h
    simp only [syncPendingOperations] at h ⊢
    simp [h]
  · intro h
    simp only [syncPendingOperations] at h ⊢
    simp [h, clearPendingOperations]

theorem sync_failure_preserves_queue_witness :
    (syncPendingOperations failApply 0 sampleQueue).2 = sampleQueue :=
  (sync_failure_preserves_queue failApply 0 sampleQueue).1 (by decide)

/-- C9: replay is at-least-once.  After a failed run the queue is
untouched, so a subsequent successful run submits the image of the whole
queue again; in particular the requests attempted by the failed run
(including the operations that had already been applied to the remote
store) form exactly the initial segment of the requests of the next
successful run, so they are submitted to the remote store a second time. -/
theorem sync_at_least_once {σ : Type} (apply : RemoteReq → σ → Option σ) (r : σ)
    (q : List PendingOp)
    (hfail : (syncPendingOperations apply r q).1.ok = false) :
    (syncPendingOperations apply r q).2 = q ∧
    ∀ (τ : Type) (apply2 : RemoteReq → τ → Option τ) (r2 : τ),
      (syncPendingOperations apply2 r2 ((syncPendingOperations apply r q).2)).1.ok = true →
      (syncPendingOperations apply2 r2 ((syncPendingOperations apply r q).2)).1.issued =
        q.map reqOf ∧
      (syncPendingOperations apply r q).1.issued =
        ((syncPendingOperations apply2 r2
            ((syncPendingOperations apply r q).2)).1.issued).take
          (syncPendingOperations apply r q).1.issued.length := by
  have hq : (syncPendingOperations apply r q).2 = q := by
    simp only [syncPendingOperations] at hfail ⊢
    simp [hfail]
  refine ⟨hq, ?_⟩
  intro τ apply2 r2 hok2
  rw [hq] at hok2 ⊢
  have h2 : (syncPendingOperations apply2 r2 q).1.issued = q.map reqOf :=
    replayOps_ok_issued apply2 q r2 hok2
  refine ⟨h2, ?_⟩
  rw [h2]
  have h1 := replayOps_issued_take apply q r
  calc (syncPendingOperations apply r q).1.issued
      = (q.take (syncPendingOperations apply r q).1.issued.length).map reqOf := h1
    _ = (q.map reqOf).take (syncPendingOperations apply r q).1.issued.length := by
        rw [List.map_take]

theorem sync_at_least_once_witness :
    (syncPendingOperations failSecondApply 0 sampleQueue).2 = sampleQueue ∧
    (syncPendingOperations okApply 0
        ((syncPendingOperations failSecondApply 0 sampleQueue).2)).1.issued =
      sampleQueue.map reqOf := by
  have h := sync_at_least_once failSecondApply 0 sampleQueue (by decide)
  exact ⟨h.1, (h.2 Nat okApply 0 (by decide)).1⟩

/-- C4: `addPendingOperation` appends to the queue exactly one record
holding the operation kind (one of 'create', 'update', 'delete'), the
affected employee as payload, and the enqueue time as timestamp; every
record of the resulting queue is either a pre-existing record or that
record. -/
theorem addPendingOperation_record_shape (q : List PendingOp) (op : OpKind)
    (e : Employee) (now : Nat) :
    addPendingOperation q op e now =
      q ++ [{ operation := op, employee := e, timestamp := now }] ∧
    (op = OpKind.create ∨ op = OpKind.update ∨ op = OpKind.delete) ∧
    ∀ rec ∈ addPendingOperation q op e now,
      rec ∈ q ∨ (rec.operation = op ∧ rec.employee = e ∧ rec.timestamp = now) := by
  refine ⟨rfl, ?_, ?_⟩
  · cases op
    · exact Or.inl rfl
    · exact Or.inr (Or.inl rfl)
    · exact Or.inr (Or.inr rfl)
  · intro rec hrec
    rcases List.mem_append.mp hrec with h | h
    · exact Or.inl h
    · rcases List.mem_singleton.mp h with rfl
      exact Or.inr ⟨rfl, rfl, rfl⟩

theorem addPendingOperation_record_shape_witness :
    addPendingOperation [] OpKind.create sampleEmp 7 =
      [{ operation := OpKind.create, employee := sampleEmp, timestamp := 7 }] :=
  (addPendingOperation_record_shape [] OpKind.create sampleEmp 7).1

/-- C5: a create, update or delete submitted while offline is applied to
the local cache mirror (an IndexedDB put for create and update, a delete
for delete), appends the corresponding pending operation to the queue,
and issues no request to the remote store. -/
theorem offline_mutations_apply_locally_and_queue (st : ClientState)
    (old e : Employee) (now : Nat) :
    handleSubmit false st none e now =
      ({ mirror := putLocal st.mirror e,
         pending := st.pending ++
           [{ operation := OpKind.create, employee := e, timestamp := now }] }, []) ∧
    handleSubmit false st (some old) e now =
      ({ mirror := putLocal st.mirror e,
         pending := st.pending ++
           [{ operation := OpKind.update, employee := e, timestamp := now }] }, []) ∧
    handleDelete false st e now =
      ({ mirror := deleteFromLocalDB st.mirror e.id,
         pending := st.pending ++
           [{ operation := OpKind.delete, employee := e, timestamp := now }] }, []) :=
  ⟨rfl, rfl, rfl⟩

/-- C3: the `check_manager_not_self` trigger raises 'An employee cannot be
their own manager' exactly on a row whose manager_id equals its own id, in
which case the row is not written (insert and update both surface the
trigger error); any other row (including a null manager_id) passes
through unchanged. -/
theorem check_manager_not_self_rejects_self (r : EmployeeRow)
    (tbl : List EmployeeRow) (now : Nat) (tid : String) (u : EmployeeUpdate)
    (old : EmployeeRow) :
    (r.manager_id = some r.id →
      check_manager_not_self r =
        Except.error "An employee cannot be their own manager" ∧
      employees_insert tbl r =
        Except.error "An employee cannot be their own manager") ∧
    (r.manager_id ≠ some r.id → check_manager_not_self r = Except.ok r) ∧
    (tbl.find? (fun x => x.id == tid) = some old →
      (applyUpdate u old).manager_id = some (applyUpdate u old).id →
      employees_update now tbl tid u =
        Except.error "An employee cannot be their own manager") := by
  refine ⟨?_, ?_, ?_⟩
  · intro h
    constructor
    · simp [check_manager_not_self, h]
    · simp [employees_insert, check_manager_not_self, h]
  · intro h
    simp [check_manager_not_self, h]
  · intro hf hs
    unfold employees_update
    rw [hf]
    simp [check_manager_not_self, hs]

theorem check_manager_not_self_rejects_self_witness :
    (check_manager_not_self selfManagedRow =
      Except.error "An employee cannot be their own manager") ∧
    (employees_insert [] selfManagedRow =
      Except.error "An employee cannot be their own manager") ∧
    (check_manager_not_self sampleRow = Except.ok sampleRow) ∧
    (employees_update 99 [sampleRow] "r1" selfRefUpdate =
      Except.error "An employee cannot be their own manager") := by
  have h1 := check_manager_not_self_rejects_self selfManagedRow [] 0 "" sampleUpdate
    sampleRow
  have h2 := check_manager_not_self_rejects_self sampleRow [sampleRow] 99 "r1"
    selfRefUpdate sampleRow
  exact ⟨(h1.1 (by decide)).1, (h1.1 (by decide)).2, h2.2.1 (by decide),
    h2.2.2 (by decide) (by decide)⟩

/-- C7: the `update_updated_at` trigger sets updated_at to the current time
and modifies no other field, and on a successful UPDATE the stored row is
exactly the supplied row with only updated_at replaced. -/
theorem update_updated_at_touches_only_timestamp (now : Nat) (r : EmployeeRow)
    (tbl : List EmployeeRow) (tid : String) (u : EmployeeUpdate)
    (old : EmployeeRow) (tbl' : List EmployeeRow) :
    ((update_updated_at now r).updated_at = now ∧
     (update_updated_at now r).id = r.id ∧
     (update_updated_at now r).employee_number = r.employee_number ∧
     (update_updated_at now r).first_name = r.first_name ∧
     (update_updated_at now r).last_name = r.last_name ∧
     (update_updated_at now r).email = r.email ∧
     (update_updated_at now r).birth_date = r.birth_date ∧
     (update_updated_at now r).salary = r.salary ∧
     (update_updated_at now r).role = r.role ∧
     (update_updated_at now r).manager_id = r.manager_id ∧
     (update_updated_at now r).created_at = r.created_at ∧
     (update_updated_at now r).created_by = r.created_by) ∧
    (tbl.find? (fun x => x.id == tid) = some old →
     employees_update now tbl tid u = Except.ok tbl' →
     tbl' = tbl.map (fun x => if x.id == tid then
        update_updated_at now (applyUpdate u old) else x)) := by
  constructor
  · exact ⟨rfl, rfl, rfl, rfl, rfl, rfl, rfl, rfl, rfl, rfl, rfl, rfl⟩
  · intro hf hup
    unfold employees_update at hup
    rw [hf] at hup
    by_cases hs : (applyUpdate u old).manager_id = some (applyUpdate u old).id
    · simp [check_manager_not_self, hs] at hup
    · simp only [check_manager_not_self, hs, if_neg, if_false] at hup
      cases hc : rowConstraintError (tbl.filter (fun x => x.id != tid))
          (update_updated_at now (applyUpdate u old)) with
      | some e => rw [hc] at hup; cases hup
      | none =>
        rw [hc] at hup
        cases hup
        rfl

theorem update_updated_at_touches_only_timestamp_witness :
    [update_updated_at 99 (applyUpdate sampleUpdate sampleRow)] =
      [sampleRow].map (fun x => if x.id == "r1" then
        update_updated_at 99 (applyUpdate sampleUpdate sampleRow) else x) :=
  (update_updated_at_touches_only_timestamp 99 sampleRow [sampleRow] "r1"
    sampleUpdate sampleRow
    [update_updated_at 99 (applyUpdate sampleUpdate sampleRow)]).2
    (by decide) (by rfl)

/-- C6 counterexample: a row duplicating an existing employee_number passes
every trigger on the employees table (the only INSERT trigger,
`check_manager_not_self`, returns it unchanged), yet the insert is
rejected — by the declarative UNIQUE constraint on the column, not by a
trigger. -/
theorem unique_employee_number_not_by_trigger :
    check_manager_not_self dupNumberRow = Except.ok dupNumberRow ∧
    sampleRow.employee_number = dupNumberRow.employee_number ∧
    employees_insert [sampleRow] dupNumberRow =
      Except.error
        "duplicate key value violates unique constraint \"employees_employee_number_key\"" := by
  refine ⟨by rfl, by decide, by rfl⟩

theorem nodup_numbers_replace (tid : String) (r2 : EmployeeRow) :
    ∀ (tbl : List EmployeeRow),
      (tbl.map (fun x => x.employee_number)).Nodup →
      (tbl.map (fun x => x.id)).Nodup →
      (∀ x ∈ tbl, x.id ≠ tid → x.employee_number ≠ r2.employee_number) →
      ((tbl.map (fun x => if x.id == tid then r2 else x)).map
        (fun x => x.employee_number)).Nodup := by
  intro tbl
  induction tbl with
  | nil => intro _ _ _; simp
  | cons a rest ih =>
    intro hnum hid hother
    simp only [List.map_cons, List.nodup_cons] at hnum hid
    by_cases ha : a.id = tid
    · have hhead : (if a.id == tid then r2 else a) = r2 := by simp [ha]
      have hself : ∀ y ∈ rest, (if y.id == tid then r2 else y) = y := by
        intro y hy
        have hyid : y.id ≠ tid := by
          intro hcon
          exact hid.1 (List.mem_map.mpr ⟨y, hy, hcon.trans ha.symm⟩)
        simp [hyid]
      have hrest_fix : rest.map (fun x => if x.id == tid then r2 else x) = rest :=
        (List.map_congr_left hself).trans (List.map_id rest)
      simp only [List.map_cons, hhead, hrest_fix, List.nodup_cons]
      constructor
      · intro hmem
        rcases List.mem_map.mp hmem with ⟨y, hy, hynum⟩
        have hyid : y.id ≠ tid := by
          intro hcon
          exact hid.1 (List.mem_map.mpr ⟨y, hy, hcon.trans ha.symm⟩)
        exact hother y (List.mem_cons_of_mem a hy) hyid hynum
      · exact hnum.2
    · have hhead : (if a.id == tid then r2 else a) = a := by simp [ha]
      simp only [List.map_cons, hhead, List.nodup_cons]
      constructor
      · intro hmem
        rcases List.mem_map.mp hmem with ⟨z, hz, hznum⟩
        rcases List.mem_map.mp hz with ⟨y, hy, hzy⟩
        subst hzy
        by_cases hyid : y.id = tid
        · have hysub : (if y.id == tid then r2 else y) = r2 := by simp [hyid]
          rw [hysub] at hznum
          exact hother a (List.mem_cons_self a rest) ha hznum.symm
        · have hysub : (if y.id == tid then r2 else y) = y := by simp [hyid]
          rw [hysub] at hznum
          exact hnum.1 (List.mem_map.mpr ⟨y, hy, hznum⟩)
      · exact ih hnum.2 hid.2 (fun y hy => hother y (List.mem_cons_of_mem a hy))

/-- C6 amended: no two employee rows ever share the same employee_number —
every successful insert or update preserves pairwise-distinct employee
numbers — but the mechanism is the declarative UNIQUE constraint on the
employee_number column; the table's triggers do not check it. -/
theorem employee_number_unique_invariant (tbl : List EmployeeRow)
    (hnum : (tbl.map (fun x => x.employee_number)).Nodup)
    (hid : (tbl.map (fun x => x.id)).Nodup) :
    (∀ (r : EmployeeRow) (tbl' : List EmployeeRow),
       employees_insert tbl r = Except.ok tbl' →
       (tbl'.map (fun x => x.employee_number)).Nodup) ∧
    (∀ (now : Nat) (tid : String) (u : EmployeeUpdate) (tbl' : List EmployeeRow),
       employees_update now tbl tid u = Except.ok tbl' →
       (tbl'.map (fun x => x.employee_number)).Nodup) := by
  constructor
  · intro r tbl' hup
    unfold employees_insert at hup
    by_cases hs : r.manager_id = some r.id
    · simp [check_manager_not_self, hs] at hup
    · simp only [check_manager_not_self, hs, if_neg, if_false] at hup
      cases hc : rowConstraintError tbl r with
      | some e => rw [hc] at hup; cases hup
      | none =>
        rw [hc] at hup
        cases hup
        cases hany : tbl.any (fun x => x.employee_number == r.employee_number) with
        | true => simp [rowConstraintError, hany] at hc
        | false =>
          have hnotin : r.employee_number ∉ tbl.map (fun x => x.employee_number) := by
            intro hmem
            rcases List.mem_map.mp hmem with ⟨y, hy, hynum⟩
            have := List.any_eq_false.mp hany y hy
            simp [hynum] at this
          simp only [List.map_append, List.map_cons, List.map_nil]
          rw [List.nodup_append]
          refine ⟨hnum, List.nodup_singleton _, ?_⟩
          intro a hmem hmem2
          rcases List.mem_singleton.mp hmem2 with rfl
          exact hnotin hmem
  · intro now tid u tbl' hup
    unfold employees_update at hup
    cases hf : tbl.find? (fun x => x.id == tid) with
    | none =>
      rw [hf] at hup
      cases hup
      exact hnum
    | some old =>
      rw [hf] at hup
      by_cases hs : (applyUpdate u old).manager_id = some (applyUpdate u old).id
      · simp [check_manager_not_self, hs] at hup
      · simp only [check_manager_not_self, hs, if_neg, if_false] at hup
        cases hc : rowConstraintError (tbl.filter (fun x => x.id != tid))
            (update_updated_at now (applyUpdate u old)) with
        | some e => rw [hc] at hup; cases hup
        | none =>
          rw [hc] at hup
          cases hup
          cases hany : (tbl.filter (fun x => x.id != tid)).any
              (fun x => x.employee_number ==
                (update_updated_at now (applyUpdate u old)).employee_number) with
          | true => simp [rowConstraintError, hany] at hc
          | false =>
            apply nodup_numbers_replace tid _ tbl hnum hid
            intro x hx hxid hxnum
            have hxf : x ∈ tbl.filter (fun x => x.id != tid) := by
              rw [List.mem_filter]
              refine ⟨hx, ?_⟩
              simp [hxid]
            have := List.any_eq_false.mp hany x hxf
            simp [hxnum] at this

theorem employee_number_unique_invariant_witness :
    ([sampleRow, freshRow].map (fun x => x.employee_number)).Nodup := by
  have h := employee_number_unique_invariant [sampleRow] (by decide) (by decide)
  exact h.1 freshRow [sampleRow, freshRow] (by rfl)

theorem lowerCode_idem (n : Nat) : lowerCode (lowerCode n) = lowerCode n := by
  by_cases h1 : 65 ≤ n ∧ n ≤ 90
  · have e1 : lowerCode n = n + 32 := by simp [lowerCode, h1.1, h1.2]
    rw [e1]
    have h3 : ¬(n + 32 ≤ 90) := by omega
    simp [lowerCode, h3]
  · have e1 : lowerCode n = n := by
      rcases not_and_or.mp h1 with h | h
      · simp [lowerCode, h]
      · simp [lowerCode, h]
    rw [e1]
    exact e1

theorem isWSCode_lowerCode (n : Nat) : isWSCode (lowerCode n) = isWSCode n := by
  by_cases h1 : 65 ≤ n ∧ n ≤ 90
  · have e1 : lowerCode n = n + 32 := by simp [lowerCode, h1.1, h1.2]
    rw [e1]
    have h32 : isWSCode (n + 32) = false := by
      simp only [isWSCode, Bool.or_eq_false_iff, beq_eq_false_iff_ne, ne_eq]
      omega
    have hn : isWSCode n = false := by
      simp only [isWSCode, Bool.or_eq_false_iff, beq_eq_false_iff_ne, ne_eq]
      omega
    rw [h32, hn]
  · have e1 : lowerCode n = n := by
      rcases not_and_or.mp h1 with h | h
      · simp [lowerCode, h]
      · simp [lowerCode, h]
    rw [e1]

theorem dropWhile_map_lower (l : List Nat) :
    (l.map lowerCode).dropWhile isWSCode = (l.dropWhile isWSCode).map lowerCode := by
  induction l with
  | nil => rfl
  | cons a t ih =>
    simp only [List.map_cons, List.dropWhile_cons, isWSCode_lowerCode a]
    cases h : isWSCode a with
    | true => simp only [if_pos rfl]; exact ih
    | false => simp

theorem jsTrim_jsToLowerCase (l : List Nat) :
    jsTrim (jsToLowerCase l) = jsToLowerCase (jsTrim l) := by
  unfold jsTrim jsToLowerCase
  rw [dropWhile_map_lower, ← List.map_reverse, dropWhile_map_lower, ← List.map_reverse]

theorem jsToLowerCase_idem (l : List Nat) :
    jsToLowerCase (jsToLowerCase l) = jsToLowerCase l := by
  unfold jsToLowerCase
  rw [List.map_map]
  exact List.map_congr_left (fun a _ => lowerCode_idem a)

theorem dropWhile_first_false (p : Nat → Bool) :
    ∀ (l : List Nat) (a : Nat), (l.dropWhile p).head? = some a → p a = false := by
  intro l
  induction l with
  | nil => intro a h; cases h
  | cons b t ih =>
    intro a h
    rw [List.dropWhile_cons] at h
    cases hb : p b with
    | true => rw [hb] at h; simp only [if_pos rfl] at h; exact ih a h
    | false =>
      rw [hb] at h
      simp only [Bool.false_eq_true, if_false, List.head?_cons, Option.some.injEq] at h
      rw [← h]
      exact hb

theorem dropWhile_eq_self_of_first (p : Nat → Bool) (l : List Nat)
    (h : ∀ a, l.head? = some a → p a = false) : l.dropWhile p = l := by
  cases l with
  | nil => rfl
  | cons a t =>
    have ha := h a rfl
    rw [List.dropWhile_cons, ha]
    simp

theorem dropWhile_getLast (p : Nat → Bool) :
    ∀ l : List Nat, l.dropWhile p ≠ [] →
      (l.dropWhile p).getLast? = l.getLast? := by
  intro l
  induction l with
  | nil => intro h; exact absurd rfl h
  | cons a t ih =>
    intro h
    rw [List.dropWhile_cons] at h ⊢
    cases ha : p a with
    | false => simp
    | true =>
      rw [ha] at h
      simp only [if_pos rfl] at h ⊢
      cases t with
      | nil => exact absurd rfl h
      | cons b t' => rw [List.getLast?_cons_cons]; exact ih h

theorem jsTrim_head_not_ws (l : List Nat) (a : Nat)
    (h : (jsTrim l).head? = some a) : isWSCode a = false := by
  unfold jsTrim at h
  rw [List.head?_reverse] at h
  by_cases hnil : ((l.dropWhile isWSCode).reverse.dropWhile isWSCode) = []
  · rw [hnil] at h; cases h
  · rw [dropWhile_getLast isWSCode _ hnil, List.getLast?_reverse] at h
    exact dropWhile_first_false isWSCode l a h

theorem jsTrim_last_not_ws (l : List Nat) (a : Nat)
    (h : (jsTrim l).getLast? = some a) : isWSCode a = false := by
  unfold jsTrim at h
  rw [List.getLast?_reverse] at h
  exact dropWhile_first_false isWSCode _ a h

theorem jsTrim_idem (l : List Nat) : jsTrim (jsTrim l) = jsTrim l := by
  have h1 : (jsTrim l).dropWhile isWSCode = jsTrim l :=
    dropWhile_eq_self_of_first isWSCode (jsTrim l) (jsTrim_head_not_ws l)
  have h2 : (jsTrim l).reverse.dropWhile isWSCode = (jsTrim l).reverse := by
    apply dropWhile_eq_self_of_first
    intro a ha
    rw [List.head?_reverse] at ha
    exact jsTrim_last_not_ws l a ha
  conv_lhs => rw [jsTrim, h1, h2, List.reverse_reverse]

theorem gravatar_hash_input_eq (e : List Nat) :
    jsToLowerCase (jsTrim (jsToLowerCase (jsTrim e))) =
      jsToLowerCase (jsTrim e) := by
  rw [jsTrim_jsToLowerCase, jsTrim_idem, jsToLowerCase_idem]

/-- C10 amended: getGravatarUrl is invariant under email normalization for
every email whose trimmed form is non-empty, and a null/undefined or empty
email yields the hash-free default URL.  (A whitespace-only email is
JS-truthy, so it is hashed — as the MD5 of the empty string — rather than
given the default URL; the invariance equation fails only for such
emails.) -/
theorem getGravatarUrl_normalization (e : List Nat) (s : Nat) (d : List Nat)
    (h : jsTrim e ≠ []) :
    getGravatarUrl (some e) s d =
      getGravatarUrl (some (jsToLowerCase (jsTrim e))) s d ∧
    getGravatarUrl none s d =
      codes "https://www.gravatar.com/avatar/?s=" ++ codes (toString s) ++
        codes "&d=" ++ d ∧
    getGravatarUrl (some []) s d =
      codes "https://www.gravatar.com/avatar/?s=" ++ codes (toString s) ++
        codes "&d=" ++ d := by
  refine ⟨?_, rfl, rfl⟩
  have he : e ≠ [] := by
    intro hcon
    rw [hcon] at h
    exact h rfl
  have hnorm : jsToLowerCase (jsTrim e) ≠ [] := by
    intro hcon
    exact h (List.map_eq_nil_iff.mp hcon)
  simp only [getGravatarUrl, if_neg he, if_neg hnorm]
  rw [gravatar_hash_input_eq]

theorem getGravatarUrl_normalization_witness :
    jsTrim (codes " Ada@Example.COM ") ≠ [] ∧
    getGravatarUrl (some (codes " Ada@Example.COM ")) 40 (codes "mp") =
      getGravatarUrl (some (jsToLowerCase (jsTrim (codes " Ada@Example.COM ")))) 40
        (codes "mp") :=
  ⟨by decide,
   (getGravatarUrl_normalization (codes " Ada@Example.COM ") 40 (codes "mp")
     (by decide)).1⟩

set_option maxRecDepth 100000 in
/-- C10 counterexample: the whitespace-only email " " is a non-empty string,
but getGravatarUrl hashes it (as the MD5 of the empty string) while its
normalized form "" gets the hash-free default URL, so the two URLs differ. -/
theorem getGravatarUrl_whitespace_counterexample :
    codes " " ≠ [] ∧
    getGravatarUrl (some (codes " ")) 80 (codes "mp") ≠
      getGravatarUrl (some (jsToLowerCase (jsTrim (codes " ")))) 80 (codes "mp") := by
  constructor
  · decide
  · decide

theorem chainUp_mono (es : List Employee) :
    ∀ (f : Nat) (e : Employee) (l : List Employee) (g : Nat),
      chainUp es f e = some l → f ≤ g → chainUp es g e = some l := by
  intro f
  induction f with
  | zero =>
    intro e l g h _
    cases hm : managerOf es e with
    | none =>
      simp only [chainUp, hm] at h
      cases g with
      | zero => simp only [chainUp, hm]; exact h
      | succ g' => simp only [chainUp, hm]; exact h
    | some m =>
      simp only [chainUp, hm] at h
      exact Option.noConfusion h
  | succ f' ih =>
    intro e l g h hle
    cases g with
    | zero => omega
    | succ g' =>
      cases hm : managerOf es e with
      | none =>
        simp only [chainUp, hm] at h ⊢
        exact h
      | some m =>
        simp only [chainUp, hm] at h ⊢
        cases hc : chainUp es f' m with
        | none =>
          rw [hc] at h
          simp only [Option.map_none'] at h
          exact Option.noConfusion h
        | some l' =>
          rw [hc] at h
          rw [ih m l' g' hc (by omega)]
          exact h

theorem chainUp_cons (es : List Employee) :
    ∀ (f : Nat) (e : Employee) (l : List Employee),
      chainUp es f e = some l → ∃ t, l = e :: t := by
  intro f e l h
  cases f with
  | zero =>
    cases hm : managerOf es e with
    | none =>
      simp only [chainUp, hm, Option.some.injEq] at h
      exact ⟨[], h.symm⟩
    | some m =>
      simp only [chainUp, hm] at h
      exact Option.noConfusion h
  | succ f' =>
    cases hm : managerOf es e with
    | none =>
      simp only [chainUp, hm, Option.some.injEq] at h
      exact ⟨[], h.symm⟩
    | some m =>
      simp only [chainUp, hm] at h
      cases hc : chainUp es f' m with
      | none =>
        rw [hc] at h
        simp only [Option.map_none'] at h
        exact Option.noConfusion h
      | some l' =>
        rw [hc] at h
        simp only [Option.map_some', Option.some.injEq] at h
        exact ⟨l', h.symm⟩

theorem chainUp_length_le (es : List Employee) :
    ∀ (f : Nat) (e : Employee) (l : List Employee),
      chainUp es f e = some l → l.length ≤ f + 1 := by
  intro f
  induction f with
  | zero =>
    intro e l h
    cases hm : managerOf es e with
    | none =>
      simp only [chainUp, hm, Option.some.injEq] at h
      rw [← h]
      simp
    | some m =>
      simp only [chainUp, hm] at h
      exact Option.noConfusion h
  | succ f' ih =>
    intro e l h
    cases hm : managerOf es e with
    | none =>
      simp only [chainUp, hm, Option.some.injEq] at h
      rw [← h]
      simp
    | some m =>
      simp only [chainUp, hm] at h
      cases hc : chainUp es f' m with
      | none =>
        rw [hc] at h
        simp only [Option.map_none'] at h
        exact Option.noConfusion h
      | some l' =>
        rw [hc] at h
        simp only [Option.map_some', Option.some.injEq] at h
        have := ih m l' hc
        rw [← h]
        simp only [List.length_cons]
        omega

theorem managerOf_mem (es : List Employee) (e m : Employee)
    (h : managerOf es e = some m) : m ∈ es := by
  unfold managerOf at h
  cases hmi : e.manager_id with
  | none => rw [hmi] at h; cases h
  | some mv =>
    rw [hmi] at h
    cases hev : mv == "" with
    | true =>
      simp only [hev, if_true] at h
      exact Option.noConfusion h
    | false =>
      simp only [hev, Bool.false_eq_true, if_false] at h
      exact List.mem_of_find?_eq_some h

theorem managerOf_manager_id (es : List Employee) (e m : Employee)
    (h : managerOf es e = some m) : e.manager_id = some m.id := by
  unfold managerOf at h
  cases hmi : e.manager_id with
  | none => rw [hmi] at h; cases h
  | some mv =>
    rw [hmi] at h
    cases hev : mv == "" with
    | true =>
      simp only [hev, if_true] at h
      exact Option.noConfusion h
    | false =>
      simp only [hev, Bool.false_eq_true, if_false] at h
      have hp := List.find?_some h
      have hmv : m.id = mv := eq_of_beq hp
      rw [hmv]

theorem find?_id_self (es : List Employee)
    (hid : (es.map (fun x => x.id)).Nodup) :
    ∀ m ∈ es, es.find? (fun x => x.id == m.id) = some m := by
  induction es with
  | nil => intro m hm; cases hm
  | cons a rest ih =>
    intro m hm
    simp only [List.map_cons, List.nodup_cons] at hid
    cases hae : a.id == m.id with
    | true =>
      have haem : a.id = m.id := eq_of_beq hae
      rcases List.mem_cons.mp hm with rfl | hm'
      · exact List.find?_cons_of_pos _ hae
      · exact absurd (List.mem_map.mpr ⟨m, hm', haem.symm⟩) hid.1
    | false =>
      have hne : a.id ≠ m.id := by
        intro hcon
        rw [hcon] at hae
        simp at hae
      have hm' : m ∈ rest := by
        rcases List.mem_cons.mp hm with rfl | hm'
        · exact absurd rfl hne
        · exact hm'
      rw [List.find?_cons_of_neg _ (by simp [hae])]
      exact ih hid.2 m hm'

theorem isAttached_false_iff (es : List Employee) (e : Employee) :
    isAttached es e = false ↔ managerOf es e = none := by
  unfold isAttached
  cases h : managerOf es e <;> simp

theorem childOf_managerOf (es : List Employee)
    (hid : (es.map (fun x => x.id)).Nodup) (x c : Employee) (hx : x ∈ es)
    (h : childOf es x.id c = true) : managerOf es c = some x := by
  unfold childOf at h
  rw [Bool.and_eq_true] at h
  rcases h with ⟨hatt, hmid⟩
  have hmid' : c.manager_id = some x.id := eq_of_beq hmid
  have hman : managerOf es c =
      if (x.id == "") = true then none else es.find? (fun y => y.id == x.id) := by
    unfold managerOf
    rw [hmid']
  unfold isAttached at hatt
  rw [hman] at hatt ⊢
  cases hev : (x.id == "") with
  | true =>
    rw [if_pos hev] at hatt
    simp at hatt
  | false =>
    simp only [Bool.false_eq_true, if_false]
    exact find?_id_self es hid x hx

theorem acyclic_chain (es : List Employee) (hacy : acyclicB es = true) :
    ∀ e ∈ es, ∃ l, chainUp es es.length e = some l := by
  intro e he
  have hs : (chainUp es es.length e).isSome = true :=
    List.all_eq_true.mp hacy e he
  cases h : chainUp es es.length e with
  | none => rw [h] at hs; simp at hs
  | some l => exact ⟨l, rfl⟩

theorem rankOf_eq (es : List Employee) (e : Employee) (l : List Employee)
    (h : chainUp es es.length e = some l) : rankOf es e = l.length - 1 := by
  unfold rankOf
  rw [h]

theorem chainUp_of_none (es : List Employee) (e : Employee)
    (h : managerOf es e = none) :
    ∀ f, chainUp es f e = some [e] := by
  intro f
  cases f with
  | zero => simp [chainUp, h]
  | succ f' => simp [chainUp, h]

theorem rank_zero_of_none (es : List Employee) (e : Employee)
    (h : managerOf es e = none) : rankOf es e = 0 := by
  rw [rankOf_eq es e [e] (chainUp_of_none es e h es.length)]
  simp

theorem rank_succ (es : List Employee) (hacy : acyclicB es = true)
    (c m : Employee) (hc : c ∈ es) (hm : managerOf es c = some m) :
    rankOf es c = rankOf es m + 1 := by
  obtain ⟨l, hl0⟩ := acyclic_chain es hacy c hc
  have hN : es.length ≠ 0 := by
    intro h0
    rw [List.length_eq_zero] at h0
    rw [h0] at hc
    cases hc
  obtain ⟨N', hN'⟩ : ∃ N', es.length = N' + 1 := ⟨es.length - 1, by omega⟩
  have hl : chainUp es (N' + 1) c = some l := by rw [← hN']; exact hl0
  simp only [chainUp, hm] at hl
  cases hc' : chainUp es N' m with
  | none =>
    rw [hc'] at hl
    simp only [Option.map_none'] at hl
    exact Option.noConfusion hl
  | some l' =>
    rw [hc'] at hl
    simp only [Option.map_some', Option.some.injEq] at hl
    have hm' : chainUp es es.length m = some l' :=
      chainUp_mono es N' m l' es.length hc' (by omega)
    obtain ⟨t, ht⟩ := chainUp_cons es N' m l' hc'
    rw [rankOf_eq es c l hl0, rankOf_eq es m l' hm', ← hl, ht]
    simp only [List.length_cons]
    omega

theorem rankOf_le (es : List Employee) (hacy : acyclicB es = true)
    (e : Employee) (he : e ∈ es) : rankOf es e ≤ es.length := by
  obtain ⟨l, hl⟩ := acyclic_chain es hacy e he
  have := chainUp_length_le es es.length e l hl
  rw [rankOf_eq es e l hl]
  omega

theorem chain_mem_es (es : List Employee) :
    ∀ (f : Nat) (e : Employee), e ∈ es → ∀ (l : List Employee),
      chainUp es f e = some l → ∀ y ∈ l, y ∈ es := by
  intro f
  induction f with
  | zero =>
    intro e he l h y hy
    cases hm : managerOf es e with
    | none =>
      simp only [chainUp, hm, Option.some.injEq] at h
      rw [← h] at hy
      rw [List.mem_singleton.mp hy]
      exact he
    | some m =>
      simp only [chainUp, hm] at h
      exact Option.noConfusion h
  | succ f' ih =>
    intro e he l h y hy
    cases hm : managerOf es e with
    | none =>
      simp only [chainUp, hm, Option.some.injEq] at h
      rw [← h] at hy
      rw [List.mem_singleton.mp hy]
      exact he
    | some m =>
      simp only [chainUp, hm] at h
      cases hc : chainUp es f' m with
      | none =>
        rw [hc] at h
        simp only [Option.map_none'] at h
        exact Option.noConfusion h
      | some l' =>
        rw [hc] at h
        simp only [Option.map_some', Option.some.injEq] at h
        rw [← h] at hy
        rcases List.mem_cons.mp hy with rfl | hy'
        · exact he
        · exact ih m (managerOf_mem es e m hm) l' hc y hy'

theorem chain_step (es : List Employee) :
    ∀ (f : Nat) (e : Employee) (l : List Employee),
      chainUp es f e = some l →
      ∀ y ∈ l, y = e ∨ ∃ c ∈ l, managerOf es c = some y := by
  intro f
  induction f with
  | zero =>
    intro e l h y hy
    cases hm : managerOf es e with
    | none =>
      simp only [chainUp, hm, Option.some.injEq] at h
      rw [← h] at hy
      exact Or.inl (List.mem_singleton.mp hy)
    | some m =>
      simp only [chainUp, hm] at h
      exact Option.noConfusion h
  | succ f' ih =>
    intro e l h y hy
    cases hm : managerOf es e with
    | none =>
      simp only [chainUp, hm, Option.some.injEq] at h
      rw [← h] at hy
      exact Or.inl (List.mem_singleton.mp hy)
    | some m =>
      simp only [chainUp, hm] at h
      cases hc : chainUp es f' m with
      | none =>
        rw [hc] at h
        simp only [Option.map_none'] at h
        exact Option.noConfusion h
      | some l' =>
        rw [hc] at h
        simp only [Option.map_some', Option.some.injEq] at h
        rw [← h] at hy ⊢
        rcases List.mem_cons.mp hy with rfl | hy'
        · exact Or.inl rfl
        · rcases ih m l' hc y hy' with rfl | ⟨c, hcl, hcy⟩
          · exact Or.inr ⟨e, List.mem_cons_self e l', hm⟩
          · exact Or.inr ⟨c, List.mem_cons_of_mem e hcl, hcy⟩

theorem chain_closure (es : List Employee) :
    ∀ (f : Nat) (e : Employee) (l : List Employee),
      chainUp es f e = some l →
      ∀ c ∈ l, ∀ y, managerOf es c = some y → y ∈ l := by
  intro f
  induction f with
  | zero =>
    intro e l h c hcl y hcy
    cases hm : managerOf es e with
    | none =>
      simp only [chainUp, hm, Option.some.injEq] at h
      rw [← h] at hcl
      rw [List.mem_singleton.mp hcl] at hcy
      rw [hm] at hcy
      exact Option.noConfusion hcy
    | some m =>
      simp only [chainUp, hm] at h
      exact Option.noConfusion h
  | succ f' ih =>
    intro e l h c hcl y hcy
    cases hm : managerOf es e with
    | none =>
      simp only [chainUp, hm, Option.some.injEq] at h
      rw [← h] at hcl
      rw [List.mem_singleton.mp hcl] at hcy
      rw [hm] at hcy
      exact Option.noConfusion hcy
    | some m =>
      simp only [chainUp, hm] at h
      cases hc : chainUp es f' m with
      | none =>
        rw [hc] at h
        simp only [Option.map_none'] at h
        exact Option.noConfusion h
      | some l' =>
        rw [hc] at h
        simp only [Option.map_some', Option.some.injEq] at h
        rw [← h] at hcl ⊢
        rcases List.mem_cons.mp hcl with rfl | hcl'
        · have hym : y = m := by
            rw [hm] at hcy
            injection hcy with h2
            exact h2.symm
          obtain ⟨t, ht⟩ := chainUp_cons es f' m l' hc
          rw [hym, ht]
          exact List.mem_cons_of_mem c (List.mem_cons_self m t)
        · exact List.mem_cons_of_mem e (ih m l' hc c hcl' y hcy)

theorem chain_getLast (es : List Employee) :
    ∀ (f : Nat) (e : Employee) (l : List Employee),
      chainUp es f e = some l →
      ∃ z, l.getLast? = some z ∧ managerOf es z = none := by
  intro f
  induction f with
  | zero =>
    intro e l h
    cases hm : managerOf es e with
    | none =>
      simp only [chainUp, hm, Option.some.injEq] at h
      exact ⟨e, by rw [← h]; simp, hm⟩
    | some m =>
      simp only [chainUp, hm] at h
      exact Option.noConfusion h
  | succ f' ih =>
    intro e l h
    cases hm : managerOf es e with
    | none =>
      simp only [chainUp, hm, Option.some.injEq] at h
      exact ⟨e, by rw [← h]; simp, hm⟩
    | some m =>
      simp only [chainUp, hm] at h
      cases hc : chainUp es f' m with
      | none =>
        rw [hc] at h
        simp only [Option.map_none'] at h
        exact Option.noConfusion h
      | some l' =>
        rw [hc] at h
        simp only [Option.map_some', Option.some.injEq] at h
        obtain ⟨z, hz, hzn⟩ := ih m l' hc
        obtain ⟨t, ht⟩ := chainUp_cons es f' m l' hc
        refine ⟨z, ?_, hzn⟩
        rw [← h, ht, List.getLast?_cons_cons, ← ht]
        exact hz

theorem chain_none_is_last (es : List Employee) :
    ∀ (f : Nat) (e : Employee) (l : List Employee),
      chainUp es f e = some l → ∀ y ∈ l, managerOf es y = none →
      l.getLast? = some y := by
  intro f
  induction f with
  | zero =>
    intro e l h y hy hyn
    cases hm : managerOf es e with
    | none =>
      simp only [chainUp, hm, Option.some.injEq] at h
      rw [← h] at hy ⊢
      rw [List.mem_singleton.mp hy]
      simp
    | some m =>
      simp only [chainUp, hm] at h
      exact Option.noConfusion h
  | succ f' ih =>
    intro e l h y hy hyn
    cases hm : managerOf es e with
    | none =>
      simp only [chainUp, hm, Option.some.injEq] at h
      rw [← h] at hy ⊢
      rw [List.mem_singleton.mp hy]
      simp
    | some m =>
      simp only [chainUp, hm] at h
      cases hc : chainUp es f' m with
      | none =>
        rw [hc] at h
        simp only [Option.map_none'] at h
        exact Option.noConfusion h
      | some l' =>
        rw [hc] at h
        simp only [Option.map_some', Option.some.injEq] at h
        rw [← h] at hy ⊢
        rcases List.mem_cons.mp hy with rfl | hy'
        · rw [hm] at hyn
          exact Option.noConfusion hyn
        · obtain ⟨t, ht⟩ := chainUp_cons es f' m l' hc
          rw [ht, List.getLast?_cons_cons, ← ht]
          exact ih m l' hc y hy' hyn

theorem chain_rank_le (es : List Employee) (hacy : acyclicB es = true) :
    ∀ (l : List Employee) (e : Employee), e ∈ es →
      chainUp es es.length e = some l →
      ∀ y ∈ l, rankOf es y ≤ rankOf es e := by
  intro l
  induction l with
  | nil => intro e he h y hy; cases hy
  | cons a l' ih =>
    intro e he h y hy
    have hN : es.length ≠ 0 := by
      intro h0
      rw [List.length_eq_zero] at h0
      rw [h0] at he
      cases he
    obtain ⟨N', hN'⟩ : ∃ N', es.length = N' + 1 := ⟨es.length - 1, by omega⟩
    have h1 : chainUp es (N' + 1) e = some (a :: l') := by rw [← hN']; exact h
    cases hm : managerOf es e with
    | none =>
      have h2 := chainUp_of_none es e hm (N' + 1)
      rw [h2] at h1
      injection h1 with h3
      injection h3 with h4 h5
      rcases List.mem_cons.mp hy with rfl | hy'
      · rw [h4]
      · rw [← h5] at hy'
        cases hy'
    | some m =>
      simp only [chainUp, hm] at h1
      cases hc : chainUp es N' m with
      | none =>
        rw [hc] at h1
        simp only [Option.map_none'] at h1
        exact Option.noConfusion h1
      | some l'' =>
        rw [hc] at h1
        simp only [Option.map_some', Option.some.injEq] at h1
        injection h1 with hae hll
        have hm_es : m ∈ es := managerOf_mem es e m hm
        have hcm : chainUp es es.length m = some l' := by
          rw [← hll]
          exact chainUp_mono es N' m l'' es.length hc (by omega)
        have h4 : rankOf es e = rankOf es m + 1 := rank_succ es hacy e m he hm
        rcases List.mem_cons.mp hy with rfl | hy'
        · rw [hae]
        · have h3 := ih m hm_es hcm y hy'
          omega

theorem chain_rank_unique (es : List Employee) (hacy : acyclicB es = true) :
    ∀ (l : List Employee) (e : Employee), e ∈ es →
      chainUp es es.length e = some l →
      ∀ y ∈ l, ∀ z ∈ l, rankOf es y = rankOf es z → y = z := by
  intro l
  induction l with
  | nil => intro e he h y hy; cases hy
  | cons a l' ih =>
    intro e he h y hy z hz hr
    have hN : es.length ≠ 0 := by
      intro h0
      rw [List.length_eq_zero] at h0
      rw [h0] at he
      cases he
    obtain ⟨N', hN'⟩ : ∃ N', es.length = N' + 1 := ⟨es.length - 1, by omega⟩
    have h1 : chainUp es (N' + 1) e = some (a :: l') := by rw [← hN']; exact h
    cases hm : managerOf es e with
    | none =>
      have h2 := chainUp_of_none es e hm (N' + 1)
      rw [h2] at h1
      injection h1 with h3
      injection h3 with h4 h5
      rcases List.mem_cons.mp hy with rfl | hy'
      · rcases List.mem_cons.mp hz with rfl | hz'
        · rfl
        · rw [← h5] at hz'
          cases hz'
      · rw [← h5] at hy'
        cases hy'
    | some m =>
      simp only [chainUp, hm] at h1
      cases hc : chainUp es N' m with
      | none =>
        rw [hc] at h1
        simp only [Option.map_none'] at h1
        exact Option.noConfusion h1
      | some l'' =>
        rw [hc] at h1
        simp only [Option.map_some', Option.some.injEq] at h1
        injection h1 with hae hll
        have hm_es : m ∈ es := managerOf_mem es e m hm
        have hcm : chainUp es es.length m = some l' := by
          rw [← hll]
          exact chainUp_mono es N' m l'' es.length hc (by omega)
        have h4 : rankOf es e = rankOf es m + 1 := rank_succ es hacy e m he hm
        rcases List.mem_cons.mp hy with rfl | hy'
        · rcases List.mem_cons.mp hz with rfl | hz'
          · rfl
          · have := chain_rank_le es hacy l' m hm_es hcm z hz'
            rw [← hae] at hr
            omega
        · rcases List.mem_cons.mp hz with rfl | hz'
          · have := chain_rank_le es hacy l' m hm_es hcm y hy'
            rw [← hae] at hr
            omega
          · exact ih m hm_es hcm y hy' z hz' hr

theorem filter_children_nil_of_rank_max (es : List Employee)
    (hid : (es.map (fun x => x.id)).Nodup) (hacy : acyclicB es = true)
    (x : Employee) (hx : x ∈ es) (hr : rankOf es x = es.length) :
    es.filter (childOf es x.id) = [] := by
  rw [List.filter_eq_nil_iff]
  intro c hc hcc
  have hmo : managerOf es c = some x := childOf_managerOf es hid x c hx hcc
  have h1 : rankOf es c = rankOf es x + 1 := rank_succ es hacy c x hc hmo
  have h2 := rankOf_le es hacy c hc
  omega

theorem buildNode_rank_max (es : List Employee)
    (hid : (es.map (fun x => x.id)).Nodup) (hacy : acyclicB es = true)
    (x : Employee) (hx : x ∈ es) (hr : rankOf es x = es.length) :
    ∀ f, buildNode es f x = ETree.node x [] := by
  intro f
  cases f with
  | zero => rfl
  | succ f' =>
    simp only [buildNode]
    rw [filter_children_nil_of_rank_max es hid hacy x hx hr]
    rfl

theorem buildNode_stable (es : List Employee)
    (hid : (es.map (fun x => x.id)).Nodup) (hacy : acyclicB es = true) :
    ∀ (k : Nat) (x : Employee), x ∈ es → es.length - rankOf es x = k →
      ∀ f1 f2, k ≤ f1 → k ≤ f2 → buildNode es f1 x = buildNode es f2 x := by
  intro k
  induction k with
  | zero =>
    intro x hx hk f1 f2 _ _
    have hr : rankOf es x = es.length := by
      have := rankOf_le es hacy x hx
      omega
    rw [buildNode_rank_max es hid hacy x hx hr,
      buildNode_rank_max es hid hacy x hx hr]
  | succ k' ih =>
    intro x hx hk f1 f2 h1 h2
    obtain ⟨f1', rfl⟩ : ∃ f1', f1 = f1' + 1 := ⟨f1 - 1, by omega⟩
    obtain ⟨f2', rfl⟩ : ∃ f2', f2 = f2' + 1 := ⟨f2 - 1, by omega⟩
    simp only [buildNode]
    congr 1
    apply List.map_congr_left
    intro c hcf
    rcases List.mem_filter.mp hcf with ⟨hces, hcc⟩
    have hmo : managerOf es c = some x := childOf_managerOf es hid x c hx hcc
    have hrc : rankOf es c = rankOf es x + 1 := rank_succ es hacy c x hces hmo
    have hrxle := rankOf_le es hacy x hx
    exact ih c hces (by omega) f1' f2' (by omega) (by omega)

theorem countF_eq_sum (e : Employee) :
    ∀ ts : List ETree, countF e ts = (ts.map (countT e)).sum := by
  intro ts
  induction ts with
  | nil => rfl
  | cons t ts ih => simp only [countF, List.map_cons, List.sum_cons, ih]

theorem sum_zero_map (l : List Employee) :
    (l.map (fun _ => (0 : Nat))).sum = 0 := by
  induction l with
  | nil => rfl
  | cons b l ih => simp only [List.map_cons, List.sum_cons, ih]

theorem sum_indicator_count (a : Employee) :
    ∀ l : List Employee,
      (l.map (fun c => if c = a then (1 : Nat) else 0)).sum = l.count a := by
  intro l
  induction l with
  | nil => rfl
  | cons b l ih =>
    simp only [List.map_cons, List.sum_cons, ih, List.count_cons]
    by_cases hb : b = a
    · have : (b == a) = true := by simp [hb]
      rw [if_pos hb, if_pos this]
      omega
    · have : ¬((b == a) = true) := by simp [hb]
      rw [if_neg hb, if_neg this]
      omega

theorem countT_buildNode_indicator (es : List Employee)
    (hid : (es.map (fun x => x.id)).Nodup) (hacy : acyclicB es = true)
    (e : Employee) (he : e ∈ es) (L : List Employee)
    (hL : chainUp es es.length e = some L) :
    ∀ (k : Nat) (x : Employee), x ∈ es → es.length - rankOf es x = k →
      ∀ f, k ≤ f →
      countT e (buildNode es f x) = (if x ∈ L then 1 else 0) := by
  intro k
  induction k with
  | zero =>
    intro x hx hk f hf
    have hr : rankOf es x = es.length := by
      have := rankOf_le es hacy x hx
      omega
    rw [buildNode_rank_max es hid hacy x hx hr]
    simp only [countT, countF]
    by_cases hxe : x = e
    · subst hxe
      have hxL : x ∈ L := by
        obtain ⟨t, ht⟩ := chainUp_cons es es.length x L hL
        rw [ht]
        exact List.mem_cons_self x t
      simp [hxL]
    · have hxL : x ∉ L := by
        intro hxL
        rcases chain_step es es.length e L hL x hxL with rfl | ⟨c, hcL, hcx⟩
        · exact hxe rfl
        · have hces : c ∈ es := chain_mem_es es es.length e he L hL c hcL
          have h1 : rankOf es c = rankOf es x + 1 := rank_succ es hacy c x hces hcx
          have h2 := rankOf_le es hacy c hces
          omega
      simp [hxe, hxL]
  | succ k' ih =>
    intro x hx hk f hf
    obtain ⟨f', rfl⟩ : ∃ f', f = f' + 1 := ⟨f - 1, by omega⟩
    simp only [buildNode, countT]
    rw [countF_eq_sum, List.map_map]
    have hrxle := rankOf_le es hacy x hx
    have hmap : (es.filter (childOf es x.id)).map (countT e ∘ buildNode es f') =
        (es.filter (childOf es x.id)).map (fun c => if c ∈ L then 1 else 0) := by
      apply List.map_congr_left
      intro c hcf
      rcases List.mem_filter.mp hcf with ⟨hces, hcc⟩
      have hmo : managerOf es c = some x := childOf_managerOf es hid x c hx hcc
      have hrc : rankOf es c = rankOf es x + 1 := rank_succ es hacy c x hces hmo
      exact ih c hces (by omega) f' (by omega)
    rw [hmap]
    by_cases hxe : x = e
    · subst hxe
      have hxL : x ∈ L := by
        obtain ⟨t, ht⟩ := chainUp_cons es es.length x L hL
        rw [ht]
        exact List.mem_cons_self x t
      have hz : ∀ c ∈ es.filter (childOf es x.id),
          (if c ∈ L then (1 : Nat) else 0) = (fun _ => (0 : Nat)) c := by
        intro c hcf
        rcases List.mem_filter.mp hcf with ⟨hces, hcc⟩
        have hmo : managerOf es c = some x := childOf_managerOf es hid x c hx hcc
        have hrc : rankOf es c = rankOf es x + 1 := rank_succ es hacy c x hces hmo
        by_cases hcL : c ∈ L
        · have := chain_rank_le es hacy L x hx hL c hcL
          omega
        · simp [hcL]
      rw [List.map_congr_left hz, sum_zero_map]
      simp [hxL]
    · by_cases hxL : x ∈ L
      · rcases chain_step es es.length e L hL x hxL with rfl | ⟨prev, hprevL, hprevx⟩
        · exact absurd rfl hxe
        · have hprev_es : prev ∈ es := chain_mem_es es es.length e he L hL prev hprevL
          have hrprev : rankOf es prev = rankOf es x + 1 :=
            rank_succ es hacy prev x hprev_es hprevx
          have hpt : ∀ c ∈ es.filter (childOf es x.id),
              (if c ∈ L then (1 : Nat) else 0) = (fun c => if c = prev then (1 : Nat) else 0) c := by
            intro c hcf
            rcases List.mem_filter.mp hcf with ⟨hces, hcc⟩
            have hmo : managerOf es c = some x := childOf_managerOf es hid x c hx hcc
            have hrc : rankOf es c = rankOf es x + 1 := rank_succ es hacy c x hces hmo
            by_cases hcL : c ∈ L
            · have hcp : c = prev :=
                chain_rank_unique es hacy L e he hL c hcL prev hprevL (by omega)
              simp [hcL, hcp, hprevL]
            · have hcp : c ≠ prev := by
                intro hcon
                exact hcL (hcon ▸ hprevL)
              simp [hcL, hcp]
          rw [List.map_congr_left hpt, sum_indicator_count]
          have hchild_prev : childOf es x.id prev = true := by
            unfold childOf
            rw [Bool.and_eq_true]
            constructor
            · unfold isAttached
              rw [hprevx]
              rfl
            · have hpm := managerOf_manager_id es prev x hprevx
              rw [hpm]
              simp
          rw [List.count_filter hchild_prev]
          have hnd : es.Nodup := List.Nodup.of_map _ hid
          rw [List.count_eq_one_of_mem hnd hprev_es]
          simp [hxe, hxL]
      · have hz : ∀ c ∈ es.filter (childOf es x.id),
            (if c ∈ L then (1 : Nat) else 0) = (fun _ => (0 : Nat)) c := by
          intro c hcf
          rcases List.mem_filter.mp hcf with ⟨hces, hcc⟩
          have hmo : managerOf es c = some x := childOf_managerOf es hid x c hx hcc
          by_cases hcL : c ∈ L
          · have := chain_closure es es.length e L hL c hcL x hmo
            exact absurd this hxL
          · simp [hcL]
        rw [List.map_congr_left hz, sum_zero_map]
        simp [hxe, hxL]

theorem occursWithChildF_of_mem (mgr e : Employee) :
    ∀ (ts : List ETree) (t : ETree), t ∈ ts → occursWithChild mgr e t = true →
      occursWithChildF mgr e ts = true := by
  intro ts
  induction ts with
  | nil => intro t ht; cases ht
  | cons a ts ih =>
    intro t ht hocc
    simp only [occursWithChildF, Bool.or_eq_true]
    rcases List.mem_cons.mp ht with rfl | ht'
    · exact Or.inl hocc
    · exact Or.inr (ih t ht' hocc)

theorem rootLabel_buildNode (es : List Employee) (f : Nat) (x : Employee) :
    rootLabel (buildNode es f x) = x := by
  cases f <;> rfl

theorem hasRootLabel_of_mem (e : Employee) (ts : List ETree) (t : ETree)
    (ht : t ∈ ts) (hl : rootLabel t = e) : hasRootLabel e ts = true := by
  unfold hasRootLabel
  rw [List.any_eq_true]
  exact ⟨t, ht, by simp [hl]⟩

theorem mem_of_getLast?_eq (l : List Employee) (z : Employee)
    (h : l.getLast? = some z) : z ∈ l := by
  rcases List.mem_getLast?_eq_getLast ((Option.mem_def).mpr h) with ⟨hne, heq⟩
  rw [heq]
  exact List.getLast_mem hne

theorem occursWithChild_chain (es : List Employee)
    (hacy : acyclicB es = true)
    (e mgr : Employee) (he : e ∈ es)
    (hmgr : managerOf es e = some mgr) (Lm : List Employee)
    (hLm : chainUp es es.length mgr = some Lm) :
    ∀ (k : Nat) (x : Employee), x ∈ es → es.length - rankOf es x = k →
      ∀ f, k ≤ f → x ∈ Lm →
      occursWithChild mgr e (buildNode es f x) = true := by
  intro k
  induction k with
  | zero =>
    intro x hx hk f hf hxLm
    have hr : rankOf es x = es.length := by
      have := rankOf_le es hacy x hx
      omega
    exfalso
    rcases chain_step es es.length mgr Lm hLm x hxLm with rfl | ⟨c, hcL, hcx⟩
    · have h1 : rankOf es e = rankOf es x + 1 := rank_succ es hacy e x he hmgr
      have h2 := rankOf_le es hacy e he
      omega
    · have hces : c ∈ es :=
        chain_mem_es es es.length mgr (managerOf_mem es e mgr hmgr) Lm hLm c hcL
      have h1 : rankOf es c = rankOf es x + 1 := rank_succ es hacy c x hces hcx
      have h2 := rankOf_le es hacy c hces
      omega
  | succ k' ih =>
    intro x hx hk f hf hxLm
    obtain ⟨f', rfl⟩ : ∃ f', f = f' + 1 := ⟨f - 1, by omega⟩
    simp only [buildNode, occursWithChild]
    rw [Bool.or_eq_true]
    by_cases hxm : x = mgr
    · subst hxm
      left
      rw [Bool.and_eq_true]
      constructor
      · simp
      · have hce : childOf es x.id e = true := by
          unfold childOf
          rw [Bool.and_eq_true]
          refine ⟨?_, ?_⟩
          · unfold isAttached
            rw [hmgr]
            rfl
          · rw [managerOf_manager_id es e x hmgr]
            simp
        apply hasRootLabel_of_mem e _ (buildNode es f' e)
        · exact List.mem_map.mpr ⟨e, List.mem_filter.mpr ⟨he, hce⟩, rfl⟩
        · exact rootLabel_buildNode es f' e
    · right
      rcases chain_step es es.length mgr Lm hLm x hxLm with rfl | ⟨prev, hprevL, hprevx⟩
      · exact absurd rfl hxm
      · have hprev_es : prev ∈ es :=
          chain_mem_es es es.length mgr (managerOf_mem es e mgr hmgr) Lm hLm prev hprevL
        have hchild : childOf es x.id prev = true := by
          unfold childOf
          rw [Bool.and_eq_true]
          refine ⟨?_, ?_⟩
          · unfold isAttached
            rw [hprevx]
            rfl
          · rw [managerOf_manager_id es prev x hprevx]
            simp
        have hrprev : rankOf es prev = rankOf es x + 1 :=
          rank_succ es hacy prev x hprev_es hprevx
        have hrxle := rankOf_le es hacy x hx
        apply occursWithChildF_of_mem mgr e _ (buildNode es f' prev)
        · exact List.mem_map.mpr ⟨prev, List.mem_filter.mpr ⟨hprev_es, hchild⟩, rfl⟩
        · exact ih prev hprev_es (by omega) f' (by omega) hprevL

/-- C8 amended: for every employee list with pairwise-distinct ids whose
manager relation (restricted to the list) is acyclic, buildHierarchyTree
produces a forest in which: the roots are exactly (in list order) the
employees whose manager_id is null, the (JS-falsy) empty string, or
matches no id in the list; every employee of the list appears exactly
once; and every attached employee appears among the subordinates of a
node of the employee whose id equals its manager_id. -/
theorem buildHierarchyTree_forest (es : List Employee)
    (hid : (es.map (fun x => x.id)).Nodup)
    (hacy : acyclicB es = true) :
    ((buildHierarchyTree es).map rootLabel =
      es.filter (fun x => match x.manager_id with
        | none => true
        | some m => m == "" || !(es.any (fun y => y.id == m)))) ∧
    (∀ e ∈ es, countF e (buildHierarchyTree es) = 1) ∧
    (∀ e ∈ es, ∀ mgr, managerOf es e = some mgr →
      occursWithChildF mgr e (buildHierarchyTree es) = true) := by
  have hroots_pred : ∀ x ∈ es, (!(isAttached es x)) = (match x.manager_id with
      | none => true
      | some m => m == "" || !(es.any (fun y => y.id == m))) := by
    intro x _
    unfold isAttached managerOf
    cases hmi : x.manager_id with
    | none => rfl
    | some m =>
      cases hev : m == "" with
      | true => simp [hev]
      | false =>
        simp only [hev, Bool.false_eq_true, if_false, Bool.false_or]
        cases hfind : es.find? (fun y => y.id == m) with
        | none =>
          have hany : es.any (fun y => y.id == m) = false := by
            rw [List.any_eq_false]
            intro y hy
            have := List.find?_eq_none.mp hfind y hy
            simp at this
            simp [this]
          rw [hany]
          rfl
        | some w =>
          have hany : es.any (fun y => y.id == m) = true := by
            rw [List.any_eq_true]
            have hw1 : w ∈ es := List.mem_of_find?_eq_some hfind
            have hw2 := List.find?_some hfind
            exact ⟨w, hw1, hw2⟩
          rw [hany]
          rfl
  refine ⟨?_, ?_, ?_⟩
  · unfold buildHierarchyTree
    rw [List.map_map]
    have h1 : (es.filter (fun e => !(isAttached es e))).map
          (rootLabel ∘ buildNode es es.length) =
        (es.filter (fun e => !(isAttached es e))).map id := by
      apply List.map_congr_left
      intro r _
      exact rootLabel_buildNode es es.length r
    rw [h1, List.map_id]
    exact List.filter_congr (fun x hx => hroots_pred x hx)
  · intro e he
    obtain ⟨L, hL⟩ := acyclic_chain es hacy e he
    unfold buildHierarchyTree
    rw [countF_eq_sum, List.map_map]
    obtain ⟨z, hz, hzn⟩ := chain_getLast es es.length e L hL
    have hzL : z ∈ L := mem_of_getLast?_eq L z hz
    have hpt : ∀ r ∈ es.filter (fun x => !(isAttached es x)),
        (countT e ∘ buildNode es es.length) r =
          (fun r => if r = z then (1 : Nat) else 0) r := by
      intro r hr
      rcases List.mem_filter.mp hr with ⟨hres, hrp⟩
      have hrn : managerOf es r = none := by
        rw [← isAttached_false_iff]
        simp at hrp
        exact hrp
      have hr0 : rankOf es r = 0 := rank_zero_of_none es r hrn
      have hcnt : countT e (buildNode es es.length r) = if r ∈ L then 1 else 0 :=
        countT_buildNode_indicator es hid hacy e he L hL es.length r hres
          (by rw [hr0, Nat.sub_zero]) es.length (Nat.le_refl _)
      simp only [Function.comp_apply, hcnt]
      by_cases hrL : r ∈ L
      · have h5 := chain_none_is_last es es.length e L hL r hrL hrn
        rw [hz] at h5
        injection h5 with h6
        rw [if_pos hrL, if_pos h6.symm]
      · have hrz : r ≠ z := by
          intro hcon
          rw [hcon] at hrL
          exact hrL hzL
        simp [hrL, hrz]
    rw [List.map_congr_left hpt, sum_indicator_count]
    have hzes : z ∈ es := chain_mem_es es es.length e he L hL z hzL
    have hzp : (!(isAttached es z)) = true := by
      have h7 : isAttached es z = false := (isAttached_false_iff es z).mpr hzn
      rw [h7]
      rfl
    have hzp2 : (fun x => !(isAttached es x)) z = true := hzp
    have hcf := @List.count_filter Employee _ _ (fun x => !(isAttached es x)) z es hzp2
    rw [hcf, List.count_eq_one_of_mem (List.Nodup.of_map _ hid) hzes]
  · intro e he mgr hmgr
    have hmgr_es : mgr ∈ es := managerOf_mem es e mgr hmgr
    obtain ⟨Lm, hLm⟩ := acyclic_chain es hacy mgr hmgr_es
    obtain ⟨z, hz, hzn⟩ := chain_getLast es es.length mgr Lm hLm
    have hzLm : z ∈ Lm := mem_of_getLast?_eq Lm z hz
    have hzes : z ∈ es := chain_mem_es es es.length mgr hmgr_es Lm hLm z hzLm
    have hz0 : rankOf es z = 0 := rank_zero_of_none es z hzn
    have hocc : occursWithChild mgr e (buildNode es es.length z) = true :=
      occursWithChild_chain es hacy e mgr he hmgr Lm hLm es.length z hzes
        (by rw [hz0, Nat.sub_zero]) es.length (Nat.le_refl _) hzLm
    have hzp : (!(isAttached es z)) = true := by
      have h7 : isAttached es z = false := (isAttached_false_iff es z).mpr hzn
      rw [h7]
      rfl
    apply occursWithChildF_of_mem mgr e _ (buildNode es es.length z)
    · unfold buildHierarchyTree
      exact List.mem_map.mpr ⟨z, List.mem_filter.mpr ⟨hzes, hzp⟩, rfl⟩
    · exact hocc

theorem buildHierarchyTree_forest_witness :
    countF demoBob (buildHierarchyTree demoHierEs) = 1 ∧
    occursWithChildF demoAlice demoBob (buildHierarchyTree demoHierEs) = true := by
  have h := buildHierarchyTree_forest demoHierEs (by decide) (by decide)
  exact ⟨h.2.1 demoBob (by decide), h.2.2 demoBob (by decide) demoAlice (by decide)⟩

/-- C8 counterexample: a list containing the same employee record twice
(hence a duplicate id) has a trivially acyclic manager relation, yet the
employee appears twice in the forest, not exactly once. -/
theorem buildHierarchyTree_dup_id_counterexample :
    acyclicB dupIdEs = true ∧ dupIdEmp ∈ dupIdEs ∧
    countF dupIdEmp (buildHierarchyTree dupIdEs) ≠ 1 := by
  refine ⟨by decide, by decide, by decide⟩
